import Mathlib

/-!
# Verification of the servum configuration-resolution engine

A shallow embedding of `src/config.rs`: the data model (`Config`, `Task`,
`Overridable`, `Inheritable`, `Path`, `Env`, `ResolvedTask`), the merge and
resolve primitives, and the iterative extends-graph resolution pipeline
(`TryFrom<Config> for (Watch, HashMap<String, ResolvedTask>)`).

Modelling conventions:
* `Rc<String>` (`Rstr`) is reference-counted sharing only, semantically a
  `String`; it is modelled as `String`, so the `Into`-conversions
  `Path<String> -> Path<Rstr>` and `Env<String> -> Env<Rstr>` vanish.
* `hashbrown::HashMap` is modelled as an association list
  `List (String × α)`; `HashMap::insert` is replace-or-append
  (`insertEntry`), `HashMap::get` is first-match lookup (`alookup`).
  Iteration order of a `HashMap` is unspecified in Rust; the list order
  stands for one such order, and order-independence is proved separately.
* `Result<ResolvedTask, Task>` from `resolve_task` is modelled as
  `Option ResolvedTask`: the `Err` payload is exactly the unchanged input
  task, so it carries no extra information.
-/

set_option autoImplicit false

namespace Servum

/-- `MultiStr`: either `"single string"` or `["multiple", "strings"]`. -/
inductive MultiStr where
  | single (s : String)
  | multi (ss : List String)
deriving DecidableEq, Repr

/-- `From<MultiStr> for Vec<Rstr>`. -/
def MultiStr.toList : MultiStr → List String
  | .single s => [s]
  | .multi ss => ss

/-- `Overridable<T>`: `Unset | Use(bool) | Custom(T)` (serde-untagged). -/
inductive Overridable (T : Type) where
  | unset
  | use (b : Bool)
  | custom (v : T)
deriving DecidableEq, Repr

/-- `Inheritable<T>`: a replace flag plus the wrapped config. -/
structure Inheritable (T : Type) where
  replace : Bool
  config : T
deriving DecidableEq, Repr

/-- `PathApplyMethod`: how dirs are applied to the PATH env var. -/
inductive PathApplyMethod where
  | before
  | after
  | overwrite
deriving DecidableEq, Repr

/-- `Path<S>` with `S = String` (see module conventions for `Rstr`). -/
structure Path where
  dirs : List String
  apply : PathApplyMethod
deriving DecidableEq, Repr

/-- `Env<S>` with `S = String`; `vars` is the `HashMap` as an assoc list. -/
structure Env where
  vars : List (String × String)
  merge : Bool
deriving DecidableEq, Repr

/-- `TaskConfig`: the base, never-inherited task fields. -/
structure TaskConfig where
  name : Option String
  cron : Option String
  cmd : Option MultiStr
  cmd_stop : Option MultiStr
  stop_timeout : Nat
  on_start : Bool
  enabled : Bool
deriving DecidableEq, Repr

/-- `Task`: raw parsed task. `extends` is a Lean keyword, hence `extends_`. -/
structure Task where
  extends_ : Option MultiStr
  config : TaskConfig
  shell : Overridable MultiStr
  path : Overridable (Inheritable Path)
  env : Overridable (Inheritable Env)
deriving DecidableEq, Repr

/-- `Watch`: config-watcher settings. -/
structure Watch where
  enabled : Bool
  force_poll : Bool
deriving DecidableEq, Repr

/-- `ResolvedTask`: the flattened form produced by resolution. -/
structure ResolvedTask where
  config : TaskConfig
  shell : Option (List String)
  path : Option Path
  env : Option Env
deriving DecidableEq, Repr

/-- `Config`: the parsed document, task map plus watch settings. -/
structure Config where
  tasks : List (String × Task)
  watch : Watch
deriving DecidableEq, Repr

/-! ## Association-list primitives (the `HashMap` model) -/

/-- `HashMap::get`: first entry with the given key. -/
def alookup {α : Type} (k : String) : List (String × α) → Option α
  | [] => none
  | kv :: rest => if kv.1 = k then some kv.2 else alookup k rest

/-- The keys of an association list. -/
def keysOf {α : Type} (m : List (String × α)) : List String :=
  m.map Prod.fst

/-- `HashMap::insert`: replace the value if the key is present, else add. -/
def insertEntry {α : Type} (m : List (String × α)) (k : String) (v : α) :
    List (String × α) :=
  if k ∈ keysOf m then
    m.map (fun kv => if kv.1 = k then (k, v) else kv)
  else m ++ [(k, v)]

/-! ## Merge and resolve primitives -/

/-- The `Mergeable` trait: `fn merge(self, other: Self) -> Self`. -/
class Mergeable (α : Type) where
  merge : α → α → α

/-- `Vec::dedup`: collapse *consecutive* duplicate elements only. -/
def dedupAdjacent : List String → List String
  | [] => []
  | [a] => [a]
  | a :: b :: rest =>
    if a = b then dedupAdjacent (b :: rest) else a :: dedupAdjacent (b :: rest)

/-- `Mergeable for Path<Rstr>`: incoming dirs first, then base dirs, then
`dedup`; the apply method comes from incoming. -/
instance : Mergeable Path where
  merge self other :=
    { dirs := dedupAdjacent (other.dirs ++ self.dirs), apply := other.apply }

/-- `HashMap::extend`: insert every entry of `other` into `m`. -/
def extendVars (m other : List (String × String)) : List (String × String) :=
  other.foldl (fun acc kv => insertEntry acc kv.1 kv.2) m

/-- `Mergeable for Env<Rstr>`: `self.vars.extend(other.vars)`; the merge
flag comes from incoming. -/
instance : Mergeable Env where
  merge self other :=
    { vars := extendVars self.vars other.vars, merge := other.merge }

/-- `Overridable::resolve(self, parent: Option<&T>) -> Option<T>`. -/
def Overridable.resolve {T : Type} : Overridable T → Option T → Option T
  | .use true, some parent => some parent
  | .unset, some parent => some parent
  | .custom v, _ => some v
  | _, _ => none

/-- `Overridable::map_custom`. -/
def Overridable.mapCustom {T O : Type} (f : T → O) :
    Overridable T → Overridable O
  | .unset => .unset
  | .use u => .use u
  | .custom v => .custom (f v)

/-- `Inheritable::resolve(self, parent: Option<&T>) -> T`. -/
def Inheritable.resolve {T : Type} [Mergeable T] (self : Inheritable T)
    (parent : Option T) : T :=
  match self.replace, parent with
  | false, some parent => Mergeable.merge parent self.config
  | _, _ => self.config

/-! ## Task resolution -/

/-- The ids named by an `extends` field, in declaration order. -/
def extendsIdsOf : Option MultiStr → List String
  | none => []
  | some (.single e) => [e]
  | some (.multi es) => es

/-- The ids a task extends from, in declaration order. -/
def taskExtendsIds (t : Task) : List String :=
  extendsIdsOf t.extends_

/-- Collect the resolved parents of a task, in declaration order; `none`
when any parent is missing from `resolved` (the `Err(task)` early return). -/
def getParents (e : Option MultiStr) (resolved : List (String × ResolvedTask)) :
    Option (List ResolvedTask) :=
  match e with
  | none => some []
  | some (.single s) =>
    match alookup s resolved with
    | some p => some [p]
    | none => none
  | some (.multi ss) => ss.mapM (fun s => alookup s resolved)

/-- The shell component of the parent fold in `resolve_task`: a parent
that defines a shell overwrites the accumulator. -/
def shellStep (acc : Option (List String)) (p : ResolvedTask) :
    Option (List String) :=
  match acc, p.shell with
  | some shell, none => some shell
  | _, some shell => some shell
  | _, _ => none

/-- The path component of the parent fold in `resolve_task`: accumulator
as base, the parent as incoming. -/
def pathStep (acc : Option Path) (p : ResolvedTask) : Option Path :=
  match acc, p.path with
  | some path, some p_path => some (Mergeable.merge path p_path)
  | some path, none => some path
  | none, some path => some path
  | none, none => none

/-- The env component of the parent fold in `resolve_task`: accumulator
as base, the parent as incoming. -/
def envStep (acc : Option Env) (p : ResolvedTask) : Option Env :=
  match acc, p.env with
  | some env, some p_env => some (Mergeable.merge env p_env)
  | some env, none => some env
  | none, some env => some env
  | none, none => none

/-- One step of the three-axis fold over the parents in `resolve_task`. -/
def axesStep (acc : Option (List String) × Option Path × Option Env)
    (p : ResolvedTask) : Option (List String) × Option Path × Option Env :=
  (shellStep acc.1 p, pathStep acc.2.1 p, envStep acc.2.2 p)

/-- The three-axis fold over the parents in `resolve_task`. -/
def foldAxes (parents : List ResolvedTask) :
    Option (List String) × Option Path × Option Env :=
  parents.foldl axesStep (none, none, none)

/-- The path-axis fold as the spec phrases it: a left-to-right fold of
`merge` over the parents that define a path. -/
def specPathFold (parents : List ResolvedTask) : Option Path :=
  match parents.filterMap ResolvedTask.path with
  | [] => none
  | h :: t => some (t.foldl Mergeable.merge h)

/-- The `Ok` body of `resolve_task`, once all parents are at hand. -/
def resolveTaskWith (task : Task) (parents : List ResolvedTask) : ResolvedTask :=
  let axes := foldAxes parents
  { config := task.config
  , shell := (task.shell.mapCustom MultiStr.toList).resolve axes.1
  , path := (task.path.mapCustom (fun p => p.resolve axes.2.1)).resolve axes.2.1
  , env := (task.env.mapCustom (fun e => e.resolve axes.2.2)).resolve axes.2.2 }

/-- `resolve_task`: `none` stands for `Err(task)` (the unchanged task). -/
def resolveTask (task : Task) (resolved : List (String × ResolvedTask)) :
    Option ResolvedTask :=
  match getParents task.extends_ resolved with
  | none => none
  | some parents => some (resolveTaskWith task parents)

/-- `From<Task> for ResolvedTask`: resolve every axis against no parent. -/
def taskIntoResolved (task : Task) : ResolvedTask :=
  { config := task.config
  , shell := (task.shell.mapCustom MultiStr.toList).resolve none
  , path := (task.path.mapCustom (fun p => p.resolve none)).resolve none
  , env := (task.env.mapCustom (fun e => e.resolve none)).resolve none }

/-! ## The resolution pipeline -/

/-- The two failure modes of resolution. -/
inductive ResolveError where
  | unknownTask (id : String)
  | cycle
deriving DecidableEq, Repr

/-- `IsEmpty for Option<MultiStr>`. -/
def extendsIsEmpty : Option MultiStr → Bool
  | none => true
  | some (.multi []) => true
  | _ => false

/-- The validation pass: the first `extends` id not present in the task
map, if any. -/
def validateExtends (tasks : List (String × Task)) : Option String :=
  tasks.findSome? (fun kt =>
    (taskExtendsIds kt.2).find? (fun e => (alookup e tasks).isNone))

/-- The loop body of a pass, for one pending task `kt` over the running
state `st = (next, resolved)`: a task that resolves is inserted into the
growing resolved map; one that does not is carried into `next`. -/
def passStep (st : List (String × Task) × List (String × ResolvedTask))
    (kt : String × Task) :
    List (String × Task) × List (String × ResolvedTask) :=
  match resolveTask kt.2 st.2 with
  | some rt => (st.1, insertEntry st.2 kt.1 rt)
  | none => (st.1 ++ [kt], st.2)

/-- One pass of the resolution loop over all pending tasks. -/
def passTasks (pending : List (String × Task))
    (resolved : List (String × ResolvedTask)) :
    List (String × Task) × List (String × ResolvedTask) :=
  pending.foldl passStep ([], resolved)

theorem passStep_fst_length_le
    (st : List (String × Task) × List (String × ResolvedTask))
    (kt : String × Task) :
    (passStep st kt).1.length ≤ st.1.length + 1 := by
  unfold passStep
  cases resolveTask kt.2 st.2 <;> simp

theorem foldl_passStep_length_le (l : List (String × Task))
    (st : List (String × Task) × List (String × ResolvedTask)) :
    (l.foldl passStep st).1.length ≤ st.1.length + l.length := by
  induction l generalizing st with
  | nil => simp
  | cons kt rest ih =>
    simp only [List.foldl_cons, List.length_cons]
    calc (List.foldl passStep (passStep st kt) rest).1.length
        ≤ (passStep st kt).1.length + rest.length := ih _
      _ ≤ (st.1.length + 1) + rest.length :=
          Nat.add_le_add_right (passStep_fst_length_le st kt) _
      _ = st.1.length + (rest.length + 1) := by omega

theorem passTasks_fst_length_le (pending : List (String × Task))
    (resolved : List (String × ResolvedTask)) :
    (passTasks pending resolved).1.length ≤ pending.length := by
  simpa using foldl_passStep_length_le pending ([], resolved)

/-- The iterative fixed-point loop: repeat passes until pending is empty;
a pass with no progress means a dependency cycle. -/
def resolveLoop (pending : List (String × Task))
    (resolved : List (String × ResolvedTask)) :
    Except ResolveError (List (String × ResolvedTask)) :=
  if pending.isEmpty then .ok resolved
  else if _h : (passTasks pending resolved).1.length = pending.length then
    .error .cycle
  else
    resolveLoop (passTasks pending resolved).1 (passTasks pending resolved).2
termination_by pending.length
decreasing_by
  have := passTasks_fst_length_le pending resolved
  omega

/-- `TryFrom<Config> for (Watch, HashMap<String, ResolvedTask>)`: validate
every `extends` reference, seed with extends-free tasks, then iterate. -/
def tryFrom (c : Config) :
    Except ResolveError (Watch × List (String × ResolvedTask)) :=
  match validateExtends c.tasks with
  | some e => .error (.unknownTask e)
  | none =>
    (resolveLoop (c.tasks.filter (fun kt => !extendsIsEmpty kt.2.extends_))
      ((c.tasks.filter (fun kt => extendsIsEmpty kt.2.extends_)).map
        (fun kt => (kt.1, taskIntoResolved kt.2)))).map
      (fun resolved => (c.watch, resolved))

/-! ## Derived predicates over the embedding -/

/-- `a` extends-edge `b`: task `a` exists and names `b` among its parents. -/
def ExtendsEdge (tasks : List (String × Task)) (a b : String) : Prop :=
  ∃ t, alookup a tasks = some t ∧ b ∈ taskExtendsIds t

/-- The extends relation contains a cycle: a nonempty id list whose
consecutive entries are linked by extends-edges, wrapping from the last
entry back to the first (a one-element list is a self-extension). -/
def HasExtendsCycle (tasks : List (String × Task)) : Prop :=
  ∃ ids : List String, ∃ h : ids ≠ [],
    List.Chain' (ExtendsEdge tasks) ids ∧
    ExtendsEdge tasks (ids.getLast h) (ids.head h)

/-- A trapped set of ids: nonempty, and every member has an extends-edge
to a member. No member can ever leave the pending set. -/
def TrappedSet (tasks : List (String × Task)) (S : List String) : Prop :=
  S ≠ [] ∧ ∀ a ∈ S, ∃ b ∈ S, ExtendsEdge tasks a b

/-- The resolved lists the loop can build over a config: append-only, each
appended entry resolving an existing raw task against parents that are
already present in the prefix built so far. -/
inductive Coherent (cfgL : List (String × Task)) :
    List (String × ResolvedTask) → Prop where
  | nil : Coherent cfgL []
  | snoc {r : List (String × ResolvedTask)} {id : String} {t : Task}
      {ps : List ResolvedTask}
      (hr : Coherent cfgL r)
      (ht : alookup id cfgL = some t)
      (hps : getParents t.extends_ r = some ps) :
      Coherent cfgL (r ++ [(id, resolveTaskWith t ps)])

/-! ## Concrete values used in scenarios and witnesses -/

/-- `TaskConfig::default()`. -/
def defaultTaskConfig : TaskConfig :=
  { name := none, cron := none, cmd := none, cmd_stop := none
  , stop_timeout := 10000, on_start := false, enabled := true }

/-- `Task::default()`. -/
def emptyTask : Task :=
  { extends_ := none, config := defaultTaskConfig
  , shell := .unset, path := .unset, env := .unset }

/-- `Watch::default()`. -/
def defaultWatch : Watch := { enabled := true, force_poll := false }

/-- Resolved `bar` of the multi-parent scenario: dirs `["/bin"]`. -/
def barRes : ResolvedTask :=
  { config := defaultTaskConfig, shell := none
  , path := some { dirs := ["/bin"], apply := .before }, env := none }

/-- Resolved `baz` of the multi-parent scenario: dirs `["/usr/bin"]`. -/
def bazRes : ResolvedTask :=
  { config := defaultTaskConfig, shell := none
  , path := some { dirs := ["/usr/bin"], apply := .before }, env := none }

/-- `qoz` extending `[bar, baz]`. -/
def qozBarBaz : Task := { emptyTask with extends_ := some (.multi ["bar", "baz"]) }

/-- `qoz` with the reversed extends order `[baz, bar]`. -/
def qozBazBar : Task := { emptyTask with extends_ := some (.multi ["baz", "bar"]) }

/-- A task extending the nonexistent id `ghost`. -/
def ghostTask : Task := { emptyTask with extends_ := some (.single "ghost") }

/-- A document with one task whose `extends` names a missing id; the other
task is valid. -/
def ghostConfig : Config :=
  { tasks := [("a", ghostTask), ("ok", emptyTask)], watch := defaultWatch }

/-- `a extends b` of the two-task cycle scenario. -/
def cycleTaskA : Task := { emptyTask with extends_ := some (.single "b") }

/-- `b extends a` of the two-task cycle scenario. -/
def cycleTaskB : Task := { emptyTask with extends_ := some (.single "a") }

/-- The cycle scenario: `a extends b`, `b extends a`. -/
def cycleConfig : Config :=
  { tasks := [("a", cycleTaskA), ("b", cycleTaskB)], watch := defaultWatch }

/-- Seed task `foo` with a custom path. -/
def fooTask : Task :=
  { emptyTask with
    config := { defaultTaskConfig with name := some "Foo" }
  , path := .custom { replace := false
                    , config := { dirs := ["/bin"], apply := .before } } }

/-- `bar extends foo` with nothing of its own. -/
def barTask : Task := { emptyTask with extends_ := some (.single "foo") }

/-- A small valid document: a seed plus one extending task. -/
def pairConfig : Config :=
  { tasks := [("foo", fooTask), ("bar", barTask)], watch := defaultWatch }

/-- `pairConfig` with the two tasks listed in the opposite order. -/
def pairConfigRev : Config :=
  { tasks := [("bar", barTask), ("foo", fooTask)], watch := defaultWatch }

/-- Two extends-free tasks; both resolve in the seed pass, in list order. -/
def seedsConfig : Config :=
  { tasks := [("a", emptyTask), ("b", fooTask)], watch := defaultWatch }

/-- `seedsConfig` with the two tasks listed in the opposite order: the
seed pass emits the resolved entries in the opposite order. -/
def seedsConfigRev : Config :=
  { tasks := [("b", fooTask), ("a", emptyTask)], watch := defaultWatch }

/-! ## Association-list lemmas -/

theorem alookup_eq_none_iff {α : Type} (k : String) (m : List (String × α)) :
    alookup k m = none ↔ k ∉ keysOf m := by
  induction m with
  | nil => simp [alookup, keysOf]
  | cons kv rest ih =>
    by_cases h : kv.1 = k
    · simp [alookup, h, keysOf]
    · simp only [alookup, if_neg h, ih, keysOf, List.map_cons, List.mem_cons]
      constructor
      · rintro hk (h1 | h2)
        · exact h h1.symm
        · exact hk h2
      · intro hk h2
        exact hk (Or.inr h2)

theorem alookup_append {α : Type} (k : String) (m₁ m₂ : List (String × α)) :
    alookup k (m₁ ++ m₂) =
      match alookup k m₁ with
      | some v => some v
      | none => alookup k m₂ := by
  induction m₁ with
  | nil => simp [alookup]
  | cons kv rest ih =>
    by_cases h : kv.1 = k
    · simp [alookup, h]
    · simp [alookup, h, ih]

theorem mem_of_alookup {α : Type} {m : List (String × α)} {k : String} {v : α}
    (h : alookup k m = some v) : (k, v) ∈ m := by
  induction m with
  | nil => simp [alookup] at h
  | cons kv rest ih =>
    rw [alookup] at h
    by_cases hk : kv.1 = k
    · rw [if_pos hk] at h
      have hkv : kv = (k, v) := by
        obtain ⟨k1, v1⟩ := kv
        simp_all
      rw [← hkv]
      exact List.mem_cons_self _ _
    · rw [if_neg hk] at h
      exact List.mem_cons_of_mem _ (ih h)

theorem mem_keysOf_of_alookup {α : Type} {m : List (String × α)} {k : String}
    {v : α} (h : alookup k m = some v) : k ∈ keysOf m := by
  have := mem_of_alookup h
  exact List.mem_map_of_mem Prod.fst this

theorem alookup_of_mem {α : Type} {m : List (String × α)} {k : String} {v : α}
    (hnd : (keysOf m).Nodup) (hmem : (k, v) ∈ m) : alookup k m = some v := by
  induction m with
  | nil => simp at hmem
  | cons kv rest ih =>
    rw [keysOf, List.map_cons, List.nodup_cons] at hnd
    rcases List.mem_cons.mp hmem with h | h
    · rw [← h]
      simp [alookup]
    · have hk : kv.1 ≠ k := by
        intro he
        exact hnd.1 (he ▸ List.mem_map_of_mem Prod.fst h)
      rw [alookup, if_neg hk]
      exact ih hnd.2 h

theorem keysOf_append {α : Type} (m₁ m₂ : List (String × α)) :
    keysOf (m₁ ++ m₂) = keysOf m₁ ++ keysOf m₂ := by
  simp [keysOf]

theorem insertEntry_fresh {α : Type} {m : List (String × α)} {k : String}
    (v : α) (h : k ∉ keysOf m) : insertEntry m k v = m ++ [(k, v)] := by
  rw [insertEntry, if_neg h]

theorem alookup_map_replace {α : Type} {m : List (String × α)} {k : String}
    (v : α) (h : k ∈ keysOf m) :
    alookup k (m.map (fun kv => if kv.1 = k then (k, v) else kv)) = some v := by
  induction m with
  | nil => simp [keysOf] at h
  | cons kv rest ih =>
    by_cases hk : kv.1 = k
    · rw [List.map_cons, if_pos hk, alookup, if_pos rfl]
    · rw [List.map_cons, if_neg hk, alookup, if_neg hk]
      apply ih
      simp only [keysOf, List.map_cons, List.mem_cons] at h
      rcases h with h1 | h1
      · exact absurd h1.symm hk
      · exact h1

theorem alookup_map_replace_ne {α : Type} {m : List (String × α)}
    {k k' : String} (v : α) (h : k' ≠ k) :
    alookup k' (m.map (fun kv => if kv.1 = k then (k, v) else kv)) =
      alookup k' m := by
  induction m with
  | nil => rfl
  | cons kv rest ih =>
    by_cases hk : kv.1 = k
    · rw [List.map_cons, if_pos hk, alookup, alookup,
        if_neg (fun he : k = k' => h he.symm), if_neg (hk ▸ fun he => h he.symm)]
      exact ih
    · rw [List.map_cons, if_neg hk, alookup, alookup]
      by_cases hk' : kv.1 = k'
      · rw [if_pos hk', if_pos hk']
      · rw [if_neg hk', if_neg hk']
        exact ih

theorem alookup_insertEntry_self {α : Type} (m : List (String × α))
    (k : String) (v : α) : alookup k (insertEntry m k v) = some v := by
  rw [insertEntry]
  by_cases h : k ∈ keysOf m
  · rw [if_pos h]
    exact alookup_map_replace v h
  · rw [if_neg h, alookup_append]
    rw [(alookup_eq_none_iff k m).mpr h]
    simp [alookup]

theorem alookup_insertEntry_ne {α : Type} (m : List (String × α))
    {k k' : String} (v : α) (h : k' ≠ k) :
    alookup k' (insertEntry m k v) = alookup k' m := by
  rw [insertEntry]
  by_cases hmem : k ∈ keysOf m
  · rw [if_pos hmem]
    exact alookup_map_replace_ne v h
  · rw [if_neg hmem, alookup_append]
    cases hv : alookup k' m with
    | some w => simp
    | none =>
      rw [alookup, if_neg (fun he : k = k' => h he.symm), alookup]

theorem alookup_prefix_some {α : Type} {m₁ : List (String × α)}
    (m₂ : List (String × α)) {k : String} {v : α} (h : alookup k m₁ = some v) :
    alookup k (m₁ ++ m₂) = some v := by
  rw [alookup_append, h]

/-! ## Adjacent de-duplication lemmas -/

theorem dedupAdjacent_sublist (l : List String) :
    List.Sublist (dedupAdjacent l) l := by
  induction l with
  | nil => simp [dedupAdjacent]
  | cons a rest ih =>
    cases rest with
    | nil => simp [dedupAdjacent]
    | cons b r =>
      rw [dedupAdjacent]
      by_cases h : a = b
      · rw [if_pos h]
        exact ih.cons a
      · rw [if_neg h]
        exact ih.cons₂ a

theorem dedupAdjacent_cons (b : String) (rest : List String) :
    ∃ t, dedupAdjacent (b :: rest) = b :: t := by
  induction rest generalizing b with
  | nil => exact ⟨[], rfl⟩
  | cons c r ih =>
    rw [dedupAdjacent]
    by_cases h : b = c
    · subst h
      rw [if_pos rfl]
      exact ih b
    · exact ⟨_, by rw [if_neg h]⟩

theorem dedupAdjacent_chain (l : List String) :
    List.Chain' (· ≠ ·) (dedupAdjacent l) := by
  induction l with
  | nil => simp [dedupAdjacent]
  | cons a rest ih =>
    cases rest with
    | nil => simp [dedupAdjacent]
    | cons b r =>
      rw [dedupAdjacent]
      by_cases h : a = b
      · rw [if_pos h]
        exact ih
      · rw [if_neg h]
        obtain ⟨t, ht⟩ := dedupAdjacent_cons b r
        rw [ht] at ih ⊢
        exact List.chain'_cons.mpr ⟨h, ih⟩

theorem dedupAdjacent_of_chain (l : List String)
    (h : List.Chain' (· ≠ ·) l) : dedupAdjacent l = l := by
  induction l with
  | nil => rfl
  | cons a rest ih =>
    cases rest with
    | nil => rfl
    | cons b r =>
      rw [List.chain'_cons] at h
      rw [dedupAdjacent, if_neg h.1, ih h.2]

/-! ## C1: the Overridable resolution table -/

/-- C1: `Overridable::resolve` is total and implements the spec's table:
`Unset` and `UseFlag(true)` inherit the parent when present and are absent
otherwise, `UseFlag(false)` is always absent, `Custom(v)` is always `v`. -/
theorem overridable_resolve_table {T : Type} (v : T) (p : Option T) :
    Overridable.resolve .unset p = p
  ∧ Overridable.resolve (.use true) p = p
  ∧ Overridable.resolve (.use false) p = (none : Option T)
  ∧ Overridable.resolve (.custom v) p = some v := by
  cases p <;> simp [Overridable.resolve]

/-! ## C4: PathConfig merging -/

/-- C4: `merge(base, incoming)` on path configs puts incoming's dirs before
base's, collapses only adjacent duplicates afterwards (the result is
duplicate-free only adjacently: it is a sublist of the concatenation, has
no adjacent duplicates, and a concatenation without adjacent duplicates —
even with repeats further apart — is kept whole), and takes incoming's
apply method. -/
theorem path_merge_spec (base incoming : Path) :
    (Mergeable.merge base incoming).dirs =
      dedupAdjacent (incoming.dirs ++ base.dirs)
  ∧ (Mergeable.merge base incoming).apply = incoming.apply
  ∧ List.Sublist (Mergeable.merge base incoming).dirs
      (incoming.dirs ++ base.dirs)
  ∧ List.Chain' (· ≠ ·) (Mergeable.merge base incoming).dirs
  ∧ (List.Chain' (· ≠ ·) (incoming.dirs ++ base.dirs) →
      (Mergeable.merge base incoming).dirs = incoming.dirs ++ base.dirs) :=
  ⟨rfl, rfl, dedupAdjacent_sublist _, dedupAdjacent_chain _,
    fun h => dedupAdjacent_of_chain _ h⟩

/-- Witness for C4 at concrete inputs: non-adjacent duplicates survive
(`/bin` twice in `["/bin", "/sbin", "/bin"]`), while an adjacent duplicate
collapses. -/
theorem path_merge_spec_witness :
    (Mergeable.merge (Path.mk ["/sbin", "/bin"] .before)
      (Path.mk ["/bin"] .after)).dirs = ["/bin", "/sbin", "/bin"]
  ∧ (Mergeable.merge (Path.mk ["/bin", "/sbin"] .before)
      (Path.mk ["/bin"] .after)).dirs = ["/bin", "/sbin"]
  ∧ (Mergeable.merge (Path.mk ["/sbin", "/bin"] .before)
      (Path.mk ["/bin"] .after)).apply = .after :=
  ⟨(path_merge_spec (Path.mk ["/sbin", "/bin"] .before)
      (Path.mk ["/bin"] .after)).2.2.2.2 (by simp [List.chain'_cons]),
   ((path_merge_spec (Path.mk ["/bin", "/sbin"] .before)
      (Path.mk ["/bin"] .after)).1).trans (by decide),
   (path_merge_spec (Path.mk ["/sbin", "/bin"] .before)
      (Path.mk ["/bin"] .after)).2.1⟩

/-! ## C5: EnvConfig merging -/

theorem alookup_extendVars (m other : List (String × String)) (k : String)
    (hnd : (keysOf other).Nodup) :
    alookup k (extendVars m other) =
      match alookup k other with
      | some v => some v
      | none => alookup k m := by
  induction other generalizing m with
  | nil => simp [extendVars, alookup]
  | cons kv rest ih =>
    rw [keysOf, List.map_cons, List.nodup_cons] at hnd
    have hstep : extendVars m (kv :: rest) =
        extendVars (insertEntry m kv.1 kv.2) rest := by
      simp [extendVars]
    rw [hstep, ih _ hnd.2]
    by_cases hk : kv.1 = k
    · have hrest : alookup k rest = none := by
        rw [alookup_eq_none_iff]
        exact hk ▸ hnd.1
      rw [hrest, alookup, if_pos hk]
      exact hk ▸ alookup_insertEntry_self m kv.1 kv.2
    · rw [alookup, if_neg hk]
      cases hr : alookup k rest with
      | some v => rfl
      | none => exact alookup_insertEntry_ne m kv.2 (fun he => hk he.symm)

/-- C5: `merge(base, incoming)` on env configs: on every key, incoming's
binding wins when present, else base's survives (so incoming's value wins
on every collision and all of incoming's keys are inserted); the merge
flag comes from incoming. -/
theorem env_merge_spec (base incoming : Env)
    (hnd : (keysOf incoming.vars).Nodup) :
    (∀ k, alookup k (Mergeable.merge base incoming).vars =
      match alookup k incoming.vars with
      | some v => some v
      | none => alookup k base.vars)
  ∧ (Mergeable.merge base incoming).merge = incoming.merge :=
  ⟨fun k => alookup_extendVars base.vars incoming.vars k hnd, rfl⟩

/-- Witness for C5 at concrete envs: a collision (`B`) resolves to
incoming's value, non-colliding keys of both sides survive, and the merge
flag is incoming's. -/
theorem env_merge_spec_witness :
    alookup "B" (Mergeable.merge (Env.mk [("A", "1"), ("B", "2")] false)
      (Env.mk [("B", "3"), ("C", "4")] true)).vars = some "3"
  ∧ alookup "A" (Mergeable.merge (Env.mk [("A", "1"), ("B", "2")] false)
      (Env.mk [("B", "3"), ("C", "4")] true)).vars = some "1"
  ∧ alookup "C" (Mergeable.merge (Env.mk [("A", "1"), ("B", "2")] false)
      (Env.mk [("B", "3"), ("C", "4")] true)).vars = some "4"
  ∧ (Mergeable.merge (Env.mk [("A", "1"), ("B", "2")] false)
      (Env.mk [("B", "3"), ("C", "4")] true)).merge = true :=
  ⟨((env_merge_spec (Env.mk [("A", "1"), ("B", "2")] false)
      (Env.mk [("B", "3"), ("C", "4")] true) (by decide)).1 "B").trans (by decide),
   ((env_merge_spec (Env.mk [("A", "1"), ("B", "2")] false)
      (Env.mk [("B", "3"), ("C", "4")] true) (by decide)).1 "A").trans (by decide),
   ((env_merge_spec (Env.mk [("A", "1"), ("B", "2")] false)
      (Env.mk [("B", "3"), ("C", "4")] true) (by decide)).1 "C").trans (by decide),
   (env_merge_spec (Env.mk [("A", "1"), ("B", "2")] false)
      (Env.mk [("B", "3"), ("C", "4")] true) (by decide)).2⟩

/-! ## C7: Inheritable resolution and its place in the Override -/

/-- C7: `Inheritable::resolve` merges the parent as base with the child's
own config as incoming exactly when `replace = false` and a parent exists,
and yields the own config alone otherwise; and in the composite used by
`resolve_task`, the inner resolution is reached only on the `Custom` arm
of the outer `Overridable` (the other arms never touch it). -/
theorem inheritable_resolve_spec {T : Type} [Mergeable T]
    (x : Inheritable T) (p : T) (q : Option T) :
    (x.replace = false → x.resolve (some p) = Mergeable.merge p x.config)
  ∧ x.resolve none = x.config
  ∧ (x.replace = true → x.resolve q = x.config)
  ∧ ((Overridable.unset.mapCustom
      (fun y : Inheritable T => y.resolve q)).resolve q = q)
  ∧ (((Overridable.use true).mapCustom
      (fun y : Inheritable T => y.resolve q)).resolve q = q)
  ∧ (((Overridable.use false).mapCustom
      (fun y : Inheritable T => y.resolve q)).resolve q = none)
  ∧ (((Overridable.custom x).mapCustom
      (fun y => y.resolve q)).resolve q = some (x.resolve q)) := by
  refine ⟨fun hr => ?_, ?_, fun hr => ?_, ?_, ?_, ?_, ?_⟩
  · simp [Inheritable.resolve, hr]
  · cases hx : x.replace <;> simp [Inheritable.resolve, hx]
  · cases q <;> simp [Inheritable.resolve, hr]
  · cases q <;> rfl
  · cases q <;> rfl
  · cases q <;> rfl
  · cases q <;> rfl

/-- Witness for C7 at a concrete path config: merge with the parent when
`replace = false`, own config when the parent is absent, own config when
`replace = true`, and the `Custom`-arm composite. -/
theorem inheritable_resolve_spec_witness :
    (Inheritable.mk false (Path.mk ["/a"] .before)).resolve
      (some (Path.mk ["/b"] .after)) =
      Mergeable.merge (Path.mk ["/b"] .after) (Path.mk ["/a"] .before)
  ∧ (Inheritable.mk false (Path.mk ["/a"] .before)).resolve none =
      Path.mk ["/a"] .before
  ∧ (Inheritable.mk true (Path.mk ["/a"] .before)).resolve
      (some (Path.mk ["/b"] .after)) = Path.mk ["/a"] .before
  ∧ ((Overridable.custom (Inheritable.mk false (Path.mk ["/a"] .before))).mapCustom
      (fun y => y.resolve (some (Path.mk ["/b"] .after)))).resolve
        (some (Path.mk ["/b"] .after)) =
      some ((Inheritable.mk false (Path.mk ["/a"] .before)).resolve
        (some (Path.mk ["/b"] .after))) :=
  ⟨(inheritable_resolve_spec (Inheritable.mk false (Path.mk ["/a"] .before))
      (Path.mk ["/b"] .after) (some (Path.mk ["/b"] .after))).1 rfl,
   (inheritable_resolve_spec (Inheritable.mk false (Path.mk ["/a"] .before))
      (Path.mk ["/b"] .after) none).2.1,
   (inheritable_resolve_spec (Inheritable.mk true (Path.mk ["/a"] .before))
      (Path.mk ["/b"] .after) (some (Path.mk ["/b"] .after))).2.2.1 rfl,
   (inheritable_resolve_spec (Inheritable.mk false (Path.mk ["/a"] .before))
      (Path.mk ["/b"] .after) (some (Path.mk ["/b"] .after))).2.2.2.2.2.2⟩

/-! ## C6: the path axis over multiple parents -/

theorem foldl_axesStep (l : List ResolvedTask)
    (s : Option (List String)) (p : Option Path) (e : Option Env) :
    l.foldl axesStep (s, p, e) =
      (l.foldl shellStep s, l.foldl pathStep p, l.foldl envStep e) := by
  induction l generalizing s p e with
  | nil => rfl
  | cons q rest ih => simp [List.foldl_cons, axesStep, ih]

theorem foldl_pathStep_some (l : List ResolvedTask) (a : Path) :
    l.foldl pathStep (some a) =
      some ((l.filterMap ResolvedTask.path).foldl Mergeable.merge a) := by
  induction l generalizing a with
  | nil => rfl
  | cons p rest ih =>
    cases hp : p.path with
    | none => simp [List.foldl_cons, pathStep, hp, List.filterMap_cons, ih]
    | some b => simp [List.foldl_cons, pathStep, hp, List.filterMap_cons, ih]

theorem foldl_pathStep_spec (l : List ResolvedTask) :
    l.foldl pathStep none = specPathFold l := by
  cases l with
  | nil => rfl
  | cons p rest =>
    cases hp : p.path with
    | none =>
      rw [List.foldl_cons]
      rw [show pathStep none p = none by simp [pathStep, hp]]
      rw [foldl_pathStep_spec rest, specPathFold, specPathFold,
        List.filterMap_cons, hp]
    | some b =>
      rw [List.foldl_cons]
      rw [show pathStep none p = some b by simp [pathStep, hp]]
      rw [foldl_pathStep_some, specPathFold, List.filterMap_cons, hp]

/-- C6: with parents P1..Pn in declaration order all present in the
resolved map, the task resolves via `resolveTaskWith`, whose path axis is
the task's own path override resolved against the left-to-right
`merge(accumulator, next_parent)` fold over the parents that define a path
(accumulator as base, next parent as incoming); concretely, `qoz`
extending `[bar, baz]` with dirs `["/bin"]` and `["/usr/bin"]` resolves to
dirs `["/usr/bin", "/bin"]` (the last-listed parent's dirs first), the
reversed extends order `[baz, bar]` gives `["/bin", "/usr/bin"]`, and the
two orderings differ. -/
theorem path_axis_fold_spec (task : Task)
    (resolved : List (String × ResolvedTask)) (ps : List ResolvedTask)
    (hps : getParents task.extends_ resolved = some ps) :
    resolveTask task resolved = some (resolveTaskWith task ps)
  ∧ (resolveTaskWith task ps).path =
      (task.path.mapCustom (fun p => p.resolve (specPathFold ps))).resolve
        (specPathFold ps)
  ∧ resolveTask qozBarBaz [("bar", barRes), ("baz", bazRes)] =
      some { config := defaultTaskConfig, shell := none
           , path := some (Path.mk ["/usr/bin", "/bin"] .before), env := none }
  ∧ resolveTask qozBazBar [("bar", barRes), ("baz", bazRes)] =
      some { config := defaultTaskConfig, shell := none
           , path := some (Path.mk ["/bin", "/usr/bin"] .before), env := none }
  ∧ Path.mk ["/usr/bin", "/bin"] PathApplyMethod.before ≠
      Path.mk ["/bin", "/usr/bin"] PathApplyMethod.before := by
  have hfold : (foldAxes ps).2.1 = specPathFold ps := by
    rw [foldAxes, foldl_axesStep]
    exact foldl_pathStep_spec ps
  refine ⟨?_, ?_, by decide, by decide, by decide⟩
  · rw [resolveTask, hps]
  · rw [show (resolveTaskWith task ps).path =
        (task.path.mapCustom (fun p => p.resolve (foldAxes ps).2.1)).resolve
          (foldAxes ps).2.1 from rfl]
    rw [hfold]

/-- Witness for C6: the multi-parent scenario itself, resolved through the
theorem with the parents `[barRes, bazRes]` collected concretely. -/
theorem path_axis_fold_spec_witness :
    resolveTask qozBarBaz [("bar", barRes), ("baz", bazRes)] =
      some (resolveTaskWith qozBarBaz [barRes, bazRes]) :=
  (path_axis_fold_spec qozBarBaz [("bar", barRes), ("baz", bazRes)]
    [barRes, bazRes] (by decide)).1

/-! ## Validation lemmas and C2 -/

theorem optionMapM_cons {β γ : Type} (f : β → Option γ) (a : β) (l : List β) :
    List.mapM f (a :: l) =
      match f a with
      | none => none
      | some b =>
        match List.mapM f l with
        | none => none
        | some bs => some (b :: bs) := by
  rw [List.mapM_cons]
  cases hfa : f a
  · rfl
  · cases hl : List.mapM f l <;> simp [hl]

theorem getParents_eq (e : Option MultiStr) (r : List (String × ResolvedTask)) :
    getParents e r = (extendsIdsOf e).mapM (fun s => alookup s r) := by
  cases e with
  | none => rfl
  | some ms =>
    cases ms with
    | single s =>
      rw [show extendsIdsOf (some (MultiStr.single s)) = [s] from rfl,
        optionMapM_cons]
      cases h : alookup s r with
      | none => simp [getParents, h]
      | some v =>
        simp only [getParents, h]
        rfl
    | multi ss => rfl

theorem mapM_alookup_none {β : Type} {es : List String} {e : String}
    (f : String → Option β) (he : e ∈ es) (hf : f e = none) :
    es.mapM f = none := by
  induction es with
  | nil => simp at he
  | cons a rest ih =>
    rw [optionMapM_cons]
    rcases List.mem_cons.mp he with h | h
    · rw [← h, hf]
    · rw [ih h]
      cases f a <;> rfl

theorem validateExtends_eq_none (tasks : List (String × Task))
    (h : ∀ kt ∈ tasks, ∀ e ∈ taskExtendsIds kt.2, e ∈ keysOf tasks) :
    validateExtends tasks = none := by
  rw [validateExtends, List.findSome?_eq_none_iff]
  intro kt hkt
  rw [List.find?_eq_none]
  intro e he
  cases hv : alookup e tasks with
  | some v => simp
  | none => exact absurd (h kt hkt e he) ((alookup_eq_none_iff e tasks).mp hv)

theorem validateExtends_eq_some {tasks : List (String × Task)} {e : String}
    (h : validateExtends tasks = some e) :
    ∃ id t, (id, t) ∈ tasks ∧ e ∈ taskExtendsIds t ∧ e ∉ keysOf tasks := by
  rw [validateExtends] at h
  obtain ⟨kt, hkt, hf⟩ := List.exists_of_findSome?_eq_some h
  have he : e ∈ taskExtendsIds kt.2 := List.mem_of_find?_eq_some hf
  have hn := List.find?_some hf
  refine ⟨kt.1, kt.2, hkt, he, ?_⟩
  rw [← alookup_eq_none_iff]
  exact Option.isNone_iff_eq_none.mp hn

theorem validateExtends_ne_none {tasks : List (String × Task)} {id : String}
    {t : Task} {e : String} (hmem : (id, t) ∈ tasks)
    (he : e ∈ taskExtendsIds t) (hmiss : e ∉ keysOf tasks) :
    validateExtends tasks ≠ none := by
  intro hn
  rw [validateExtends, List.findSome?_eq_none_iff] at hn
  have hfind := hn (id, t) hmem
  rw [List.find?_eq_none] at hfind
  exact hfind e he (by simp [(alookup_eq_none_iff e tasks).mpr hmiss])

/-- C2: an `extends` entry naming a nonexistent id makes the whole
resolution fail with an unknown-reference error naming an offending
(referenced-but-missing) id, whatever the other tasks look like. The
error comes out of the validation pass that runs before the resolution
loop, and the `Except.error` result carries no resolved map and no
partial result. When the missing referenced id is unique, the error
names exactly that id. -/
theorem unknown_reference_spec (c : Config) (id : String) (t : Task)
    (e : String) (hmem : (id, t) ∈ c.tasks) (he : e ∈ taskExtendsIds t)
    (hmiss : e ∉ keysOf c.tasks) :
    (∃ e2, (∃ id2 t2, (id2, t2) ∈ c.tasks ∧ e2 ∈ taskExtendsIds t2 ∧
        e2 ∉ keysOf c.tasks) ∧ tryFrom c = .error (.unknownTask e2))
  ∧ ((∀ e2 id2 t2, (id2, t2) ∈ c.tasks → e2 ∈ taskExtendsIds t2 →
        e2 ∉ keysOf c.tasks → e2 = e) → tryFrom c = .error (.unknownTask e)) := by
  cases hv : validateExtends c.tasks with
  | none => exact absurd hv (validateExtends_ne_none hmem he hmiss)
  | some e2 =>
    obtain ⟨id2, t2, h1, h2, h3⟩ := validateExtends_eq_some hv
    have htf : tryFrom c = .error (.unknownTask e2) := by
      simp only [tryFrom, hv]
    refine ⟨⟨e2, ⟨id2, t2, h1, h2, h3⟩, htf⟩, fun huniq => ?_⟩
    rw [htf, huniq e2 id2 t2 h1 h2 h3]

/-- Witness for C2: the `ghost` reference in `ghostConfig` aborts the
whole resolution with an unknown-task error naming an offending id, even
though the document's other task is valid. -/
theorem unknown_reference_spec_witness :
    ∃ e2, (∃ id2 t2, (id2, t2) ∈ ghostConfig.tasks ∧
        e2 ∈ taskExtendsIds t2 ∧ e2 ∉ keysOf ghostConfig.tasks) ∧
      tryFrom ghostConfig = .error (.unknownTask e2) :=
  (unknown_reference_spec ghostConfig "a" ghostTask "ghost" (by decide)
    (by decide) (by decide)).1

/-! ## Cycle detection: C3 -/

theorem keysOf_map_value {α β : Type} (l : List (String × α))
    (f : α → β) :
    keysOf (l.map (fun kt => (kt.1, f kt.2))) = keysOf l := by
  simp [keysOf, List.map_map]

theorem extendsIsEmpty_true_iff (e : Option MultiStr) :
    extendsIsEmpty e = true ↔ extendsIdsOf e = [] := by
  cases e with
  | none => simp [extendsIsEmpty, extendsIdsOf]
  | some ms =>
    cases ms with
    | single s => simp [extendsIsEmpty, extendsIdsOf]
    | multi es => cases es <;> simp [extendsIsEmpty, extendsIdsOf]

theorem exists_mem_of_ne_nil {α : Type} {l : List α} (h : l ≠ []) :
    ∃ a, a ∈ l := by
  cases l with
  | nil => exact absurd rfl h
  | cons a rest => exact ⟨a, List.mem_cons_self a rest⟩

theorem trapped_of_cycle {tasks : List (String × Task)}
    (h : HasExtendsCycle tasks) : ∃ S, TrappedSet tasks S := by
  obtain ⟨ids, hne, hchain, hwrap⟩ := h
  refine ⟨ids, hne, ?_⟩
  intro a ha
  obtain ⟨⟨i, hi⟩, hget⟩ := List.mem_iff_get.mp ha
  by_cases hlast : i = ids.length - 1
  · refine ⟨ids.head hne, List.head_mem hne, ?_⟩
    have hgl : ids.get ⟨i, hi⟩ = ids.getLast hne := by
      rw [List.getLast_eq_getElem]
      simp only [List.get_eq_getElem]
      subst hlast
      rfl
    rw [← hget, hgl]
    exact hwrap
  · have hlen : ids.length ≠ 0 := by
      intro h0
      rw [h0] at hi
      omega
    have hi2 : i + 1 < ids.length := by omega
    have hedge := List.chain'_iff_get.mp hchain i (by omega)
    refine ⟨ids.get ⟨i + 1, hi2⟩, List.get_mem ids _ hi2, ?_⟩
    rw [← hget]
    exact hedge

theorem mem_keysOf_insertEntry {α : Type} {m : List (String × α)}
    {k a : String} {v : α} (h : a ∈ keysOf (insertEntry m k v)) :
    a = k ∨ a ∈ keysOf m := by
  rw [insertEntry] at h
  by_cases hk : k ∈ keysOf m
  · rw [if_pos hk] at h
    simp only [keysOf, List.map_map, List.mem_map] at h
    obtain ⟨kv, hkv, heq⟩ := h
    simp only [Function.comp_apply] at heq
    by_cases hkvk : kv.1 = k
    · rw [if_pos hkvk] at heq
      left
      exact heq.symm
    · rw [if_neg hkvk] at heq
      right
      rw [keysOf, List.mem_map]
      exact ⟨kv, hkv, heq⟩
  · rw [if_neg hk, keysOf_append] at h
    rcases List.mem_append.mp h with h | h
    · right
      exact h
    · left
      simpa [keysOf] using h

theorem foldl_passStep_fst_sublist (l : List (String × Task))
    (st : List (String × Task) × List (String × ResolvedTask)) :
    ∃ l2, (l.foldl passStep st).1 = st.1 ++ l2 ∧ List.Sublist l2 l := by
  induction l generalizing st with
  | nil => exact ⟨[], by simp, List.Sublist.slnil⟩
  | cons kt rest ih =>
    rw [List.foldl_cons]
    cases hr : resolveTask kt.2 st.2 with
    | some rt =>
      have hstep : passStep st kt = (st.1, insertEntry st.2 kt.1 rt) := by
        rw [passStep, hr]
      rw [hstep]
      rcases ih (st.1, insertEntry st.2 kt.1 rt) with ⟨l2, h1, h2⟩
      exact ⟨l2, h1, h2.cons kt⟩
    | none =>
      have hstep : passStep st kt = (st.1 ++ [kt], st.2) := by
        rw [passStep, hr]
      rw [hstep]
      rcases ih (st.1 ++ [kt], st.2) with ⟨l2, h1, h2⟩
      exact ⟨kt :: l2,
        h1.trans (List.append_assoc st.1 [kt] l2).symm.symm, h2.cons₂ kt⟩

theorem foldl_passStep_trapped (cfgL : List (String × Task))
    (hcnd : (keysOf cfgL).Nodup) (S : List String)
    (hS : ∀ a ∈ S, ∃ b ∈ S, ExtendsEdge cfgL a b) :
    ∀ (l : List (String × Task))
      (st : List (String × Task) × List (String × ResolvedTask)),
    (∀ kt ∈ l, kt ∈ cfgL) →
    (∀ a ∈ S, a ∉ keysOf st.2) →
    (∀ a ∈ S, a ∈ keysOf st.1 ∨ a ∈ keysOf l) →
    (∀ a ∈ S, a ∉ keysOf (l.foldl passStep st).2) ∧
    (∀ a ∈ S, a ∈ keysOf (l.foldl passStep st).1) := by
  intro l
  induction l with
  | nil =>
    intro st hsub hres hpend
    refine ⟨hres, fun a ha => ?_⟩
    rcases hpend a ha with h | h
    · exact h
    · simp [keysOf] at h
  | cons kt rest ih =>
    intro st hsub hres hpend
    rw [List.foldl_cons]
    by_cases hmem : kt.1 ∈ S
    · have hkt : kt ∈ cfgL := hsub kt (List.mem_cons_self _ _)
      have halk : alookup kt.1 cfgL = some kt.2 := by
        obtain ⟨k, t⟩ := kt
        exact alookup_of_mem hcnd hkt
      obtain ⟨b, hb, t2, ht2, hbt⟩ := hS kt.1 hmem
      have ht2' : t2 = kt.2 := by
        rw [halk] at ht2
        exact Option.some_inj.mp ht2.symm
      have hfail : resolveTask kt.2 st.2 = none := by
        rw [resolveTask, getParents_eq,
          mapM_alookup_none _ (ht2' ▸ hbt)
            ((alookup_eq_none_iff b st.2).mpr (hres b hb))]
      have hstep : passStep st kt = (st.1 ++ [kt], st.2) := by
        rw [passStep, hfail]
      rw [hstep]
      apply ih (st.1 ++ [kt], st.2)
        (fun kt2 h2 => hsub kt2 (List.mem_cons_of_mem _ h2)) hres
      intro a ha
      rcases hpend a ha with h | h
      · left
        rw [keysOf_append]
        exact List.mem_append_left _ h
      · have h2 : a = kt.1 ∨ a ∈ keysOf rest := by
          simpa only [keysOf, List.map_cons, List.mem_cons] using h
        rcases h2 with h1 | h1
        · left
          rw [keysOf_append]
          refine List.mem_append_right _ ?_
          simp [keysOf, h1]
        · right
          exact h1
    · cases hr : resolveTask kt.2 st.2 with
      | some rt =>
        have hstep : passStep st kt = (st.1, insertEntry st.2 kt.1 rt) := by
          rw [passStep, hr]
        rw [hstep]
        apply ih (st.1, insertEntry st.2 kt.1 rt)
          (fun kt2 h2 => hsub kt2 (List.mem_cons_of_mem _ h2))
        · intro a ha hin
          rcases mem_keysOf_insertEntry hin with h1 | h1
          · exact hmem (h1 ▸ ha)
          · exact hres a ha h1
        · intro a ha
          rcases hpend a ha with h | h
          · left
            exact h
          · have h2 : a = kt.1 ∨ a ∈ keysOf rest := by
              simpa only [keysOf, List.map_cons, List.mem_cons] using h
            rcases h2 with h1 | h1
            · exact absurd (h1 ▸ ha) hmem
            · right
              exact h1
      | none =>
        have hstep : passStep st kt = (st.1 ++ [kt], st.2) := by
          rw [passStep, hr]
        rw [hstep]
        apply ih (st.1 ++ [kt], st.2)
          (fun kt2 h2 => hsub kt2 (List.mem_cons_of_mem _ h2)) hres
        intro a ha
        rcases hpend a ha with h | h
        · left
          rw [keysOf_append]
          exact List.mem_append_left _ h
        · have h2 : a = kt.1 ∨ a ∈ keysOf rest := by
            simpa only [keysOf, List.map_cons, List.mem_cons] using h
          rcases h2 with h1 | h1
          · left
            rw [keysOf_append]
            refine List.mem_append_right _ ?_
            simp [keysOf, h1]
          · right
            exact h1

theorem resolveLoop_trapped (cfgL : List (String × Task))
    (hcnd : (keysOf cfgL).Nodup) (S : List String) (hSne : S ≠ [])
    (hS : ∀ a ∈ S, ∃ b ∈ S, ExtendsEdge cfgL a b) :
    ∀ (n : Nat) (pending : List (String × Task))
      (resolved : List (String × ResolvedTask)),
    pending.length ≤ n →
    (∀ kt ∈ pending, kt ∈ cfgL) →
    (∀ a ∈ S, a ∈ keysOf pending) →
    (∀ a ∈ S, a ∉ keysOf resolved) →
    resolveLoop pending resolved = .error .cycle := by
  intro n
  induction n with
  | zero =>
    intro pending resolved hlen hsub hpend hres
    obtain ⟨a, ha⟩ := exists_mem_of_ne_nil hSne
    have hnil : pending = [] := List.length_eq_zero.mp (Nat.le_zero.mp hlen)
    have := hpend a ha
    rw [hnil] at this
    simp [keysOf] at this
  | succ n ih =>
    intro pending resolved hlen hsub hpend hres
    obtain ⟨a, ha⟩ := exists_mem_of_ne_nil hSne
    have hpne : pending ≠ [] := by
      intro h
      have := hpend a ha
      rw [h] at this
      simp [keysOf] at this
    rw [resolveLoop]
    rw [if_neg (by simpa [List.isEmpty_iff] using hpne)]
    by_cases hprog : (passTasks pending resolved).1.length = pending.length
    · rw [dif_pos hprog]
    · rw [dif_neg hprog]
      have hpass := foldl_passStep_trapped cfgL hcnd S hS pending ([], resolved)
        hsub (by simpa using hres) (fun a ha => Or.inr (hpend a ha))
      obtain ⟨l2, hl2eq, hl2sub⟩ := foldl_passStep_fst_sublist pending ([], resolved)
      have hle := passTasks_fst_length_le pending resolved
      apply ih
      · omega
      · intro kt hkt
        have hp1 : (passTasks pending resolved).1 = l2 := by
          rw [passTasks, hl2eq]
          rfl
        rw [hp1] at hkt
        exact hsub kt (hl2sub.mem hkt)
      · exact hpass.2
      · exact hpass.1

/-- C3: when every `extends` reference is valid but the extends relation
contains a cycle (a self-extension included), the pipeline terminates and
fails with the dependency-cycle error — the no-progress check of the
iterative loop — and the `Except.error` result carries no resolved map. -/
theorem cycle_error_spec (c : Config) (hcnd : (keysOf c.tasks).Nodup)
    (hvalid : ∀ kt ∈ c.tasks, ∀ e ∈ taskExtendsIds kt.2, e ∈ keysOf c.tasks)
    (hcyc : HasExtendsCycle c.tasks) :
    tryFrom c = .error .cycle := by
  obtain ⟨S, hSne, hS⟩ := trapped_of_cycle hcyc
  have hv : validateExtends c.tasks = none := validateExtends_eq_none _ hvalid
  have hpend : ∀ a ∈ S,
      a ∈ keysOf (c.tasks.filter (fun kt => !extendsIsEmpty kt.2.extends_)) := by
    intro a ha
    obtain ⟨b, _, t, ht, hbt⟩ := hS a ha
    have hmem : (a, t) ∈ c.tasks := mem_of_alookup ht
    have hne : extendsIsEmpty t.extends_ = false := by
      cases hh : extendsIsEmpty t.extends_ with
      | false => rfl
      | true =>
        rw [extendsIsEmpty_true_iff] at hh
        rw [taskExtendsIds, hh] at hbt
        simp at hbt
    refine List.mem_map_of_mem Prod.fst (List.mem_filter.mpr ⟨hmem, ?_⟩)
    rw [hne]
    rfl
  have hres : ∀ a ∈ S,
      a ∉ keysOf ((c.tasks.filter
        (fun kt => extendsIsEmpty kt.2.extends_)).map
          (fun kt => (kt.1, taskIntoResolved kt.2))) := by
    intro a ha hin
    rw [keysOf_map_value] at hin
    rw [keysOf, List.mem_map] at hin
    obtain ⟨kt, hkt, hfst⟩ := hin
    have hmem := List.mem_filter.mp hkt
    obtain ⟨b, _, t, ht, hbt⟩ := hS a ha
    have hsame : kt.2 = t := by
      have h1 : alookup a c.tasks = some kt.2 := by
        obtain ⟨k, t2⟩ := kt
        cases hfst
        exact alookup_of_mem hcnd hmem.1
      rw [ht] at h1
      exact (Option.some_inj.mp h1).symm
    rw [hsame] at hmem
    rw [extendsIsEmpty_true_iff] at hmem
    rw [taskExtendsIds, hmem.2] at hbt
    simp at hbt
  have hloop := resolveLoop_trapped c.tasks hcnd S hSne hS
    (c.tasks.filter (fun kt => !extendsIsEmpty kt.2.extends_)).length
    (c.tasks.filter (fun kt => !extendsIsEmpty kt.2.extends_))
    ((c.tasks.filter (fun kt => extendsIsEmpty kt.2.extends_)).map
      (fun kt => (kt.1, taskIntoResolved kt.2)))
    le_rfl (fun kt hkt => (List.mem_filter.mp hkt).1) hpend hres
  simp only [tryFrom, hv, hloop]
  rfl

/-- Witness for C3: the two-task cycle `a extends b`, `b extends a`
resolves to the dependency-cycle error. -/
theorem cycle_error_spec_witness : tryFrom cycleConfig = .error .cycle := by
  apply cycle_error_spec cycleConfig (by decide) (by decide)
  refine ⟨["a", "b"], by simp, ?_, ?_⟩
  · exact List.chain'_cons.mpr
      ⟨⟨cycleTaskA, by decide, by decide⟩, List.chain'_singleton _⟩
  · exact ⟨cycleTaskB, by decide, by decide⟩

/-! ## Loop soundness: successful resolutions are coherent -/

theorem taskIntoResolved_eq (t : Task) :
    taskIntoResolved t = resolveTaskWith t [] := rfl

theorem getParents_seed {e : Option MultiStr}
    (h : extendsIsEmpty e = true) (r : List (String × ResolvedTask)) :
    getParents e r = some [] := by
  rw [extendsIsEmpty_true_iff] at h
  cases e with
  | none => rfl
  | some ms =>
    cases ms with
    | single s => simp [extendsIdsOf] at h
    | multi es =>
      rw [show extendsIdsOf (some (MultiStr.multi es)) = es from rfl] at h
      subst h
      rfl

theorem nodup_extract {A BC : List String} {x : String}
    (h : (A ++ (x :: BC)).Nodup) : x ∉ A ++ BC ∧ (A ++ BC).Nodup := by
  have h2 := List.perm_middle.nodup h
  rw [List.nodup_cons] at h2
  exact h2

theorem perm_shuffle (a b c : List String) (x : String) :
    List.Perm (a ++ (b ++ (c ++ [x]))) (a ++ ((x :: b) ++ c)) := by
  refine List.Perm.append_left a ?_
  have h1 : b ++ (c ++ [x]) = (b ++ c) ++ [x] := (List.append_assoc b c [x]).symm
  rw [h1]
  exact List.perm_append_comm

theorem coherent_seeds (cfgL : List (String × Task))
    (hcnd : (keysOf cfgL).Nodup) (l : List (String × Task))
    (hsub : ∀ kt ∈ l, kt ∈ cfgL ∧ extendsIsEmpty kt.2.extends_ = true) :
    Coherent cfgL (l.map (fun kt => (kt.1, taskIntoResolved kt.2))) := by
  induction l using List.reverseRecOn with
  | nil => exact Coherent.nil
  | append_singleton l kt ih =>
    rw [List.map_append]
    have h := hsub kt (List.mem_append_right l (List.mem_cons_self kt []))
    have halk : alookup kt.1 cfgL = some kt.2 := by
      obtain ⟨k, t⟩ := kt
      exact alookup_of_mem hcnd h.1
    rw [show (([kt]).map (fun kt => (kt.1, taskIntoResolved kt.2))) =
      [(kt.1, resolveTaskWith kt.2 [])] by
        simp only [List.map_cons, List.map_nil, taskIntoResolved_eq]]
    exact Coherent.snoc
      (ih (fun kt2 h2 => hsub kt2 (List.mem_append_left _ h2)))
      halk (getParents_seed h.2 _)

theorem resolveTask_some {t : Task} {res : List (String × ResolvedTask)}
    {rt : ResolvedTask} (hr : resolveTask t res = some rt) :
    ∃ ps, getParents t.extends_ res = some ps ∧ rt = resolveTaskWith t ps := by
  rw [resolveTask] at hr
  cases hg : getParents t.extends_ res with
  | none =>
    rw [hg] at hr
    exact absurd hr (by simp)
  | some ps =>
    rw [hg] at hr
    exact ⟨ps, rfl, (Option.some_inj.mp hr).symm⟩

theorem foldl_passStep_ok (cfgL : List (String × Task))
    (hcnd : (keysOf cfgL).Nodup) :
    ∀ (l : List (String × Task))
      (st : List (String × Task) × List (String × ResolvedTask)),
    (∀ kt ∈ l, kt ∈ cfgL) →
    (∀ kt ∈ st.1, kt ∈ cfgL) →
    (keysOf st.1 ++ (keysOf l ++ keysOf st.2)).Nodup →
    Coherent cfgL st.2 →
    (∀ kt ∈ (l.foldl passStep st).1, kt ∈ cfgL)
    ∧ Coherent cfgL (l.foldl passStep st).2
    ∧ (keysOf (l.foldl passStep st).1 ++
        keysOf (l.foldl passStep st).2).Perm
          (keysOf st.1 ++ (keysOf l ++ keysOf st.2)) := by
  intro l
  induction l with
  | nil =>
    intro st _ hsub1 hnd hco
    exact ⟨hsub1, hco, by simp [keysOf]⟩
  | cons kt rest ih =>
    intro st hsubl hsub1 hnd hco
    rw [List.foldl_cons]
    have hndshape : keysOf st.1 ++ (keysOf (kt :: rest) ++ keysOf st.2) =
        keysOf st.1 ++ (kt.1 :: (keysOf rest ++ keysOf st.2)) := by
      simp [keysOf]
    rw [hndshape] at hnd
    obtain ⟨hx, hnd0⟩ := nodup_extract hnd
    cases hr : resolveTask kt.2 st.2 with
    | some rt =>
      obtain ⟨ps, hps, hrt⟩ := resolveTask_some hr
      have hfresh : kt.1 ∉ keysOf st.2 := by
        intro hmem
        exact hx (List.mem_append_right _ (List.mem_append_right _ hmem))
      have hstep : passStep st kt = (st.1, st.2 ++ [(kt.1, rt)]) := by
        have h0 : passStep st kt = (st.1, insertEntry st.2 kt.1 rt) := by
          rw [passStep, hr]
        rw [h0, insertEntry_fresh _ hfresh]
      rw [hstep]
      have halk : alookup kt.1 cfgL = some kt.2 := by
        obtain ⟨k, t⟩ := kt
        exact alookup_of_mem hcnd (hsubl (k, t) (List.mem_cons_self _ _))
      have hco2 : Coherent cfgL (st.2 ++ [(kt.1, rt)]) := by
        rw [hrt]
        exact Coherent.snoc hco halk hps
      have hkeys2 : keysOf (st.2 ++ [(kt.1, rt)]) = keysOf st.2 ++ [kt.1] := by
        rw [keysOf_append]
        rfl
      have hnd2 : (keysOf st.1 ++
          (keysOf rest ++ keysOf (st.2 ++ [(kt.1, rt)]))).Nodup := by
        rw [hkeys2]
        exact (perm_shuffle (keysOf st.1) (keysOf rest) (keysOf st.2)
          kt.1).symm.nodup hnd
      obtain ⟨ha, hb, hc⟩ := ih (st.1, st.2 ++ [(kt.1, rt)])
        (fun kt2 h2 => hsubl kt2 (List.mem_cons_of_mem _ h2)) hsub1 hnd2 hco2
      refine ⟨ha, hb, ?_⟩
      refine hc.trans ?_
      rw [hkeys2, hndshape]
      exact perm_shuffle (keysOf st.1) (keysOf rest) (keysOf st.2) kt.1
    | none =>
      have hstep : passStep st kt = (st.1 ++ [kt], st.2) := by
        rw [passStep, hr]
      rw [hstep]
      have hkeys1 : keysOf (st.1 ++ [kt]) = keysOf st.1 ++ [kt.1] := by
        rw [keysOf_append]
        rfl
      have heq : keysOf (st.1 ++ [kt]) ++ (keysOf rest ++ keysOf st.2) =
          keysOf st.1 ++ (kt.1 :: (keysOf rest ++ keysOf st.2)) := by
        rw [hkeys1, List.append_assoc]
        rfl
      have hnd2 : (keysOf (st.1 ++ [kt]) ++
          (keysOf rest ++ keysOf st.2)).Nodup := by
        rw [heq]
        exact hnd
      have hsub2 : ∀ kt2 ∈ st.1 ++ [kt], kt2 ∈ cfgL := by
        intro kt2 h2
        rcases List.mem_append.mp h2 with h3 | h3
        · exact hsub1 kt2 h3
        · rcases List.mem_cons.mp h3 with h4 | h4
          · exact h4 ▸ hsubl kt (List.mem_cons_self _ _)
          · simp at h4
      obtain ⟨ha, hb, hc⟩ := ih (st.1 ++ [kt], st.2)
        (fun kt2 h2 => hsubl kt2 (List.mem_cons_of_mem _ h2)) hsub2 hnd2 hco
      refine ⟨ha, hb, ?_⟩
      refine hc.trans ?_
      rw [heq, hndshape]

theorem resolveLoop_ok (cfgL : List (String × Task))
    (hcnd : (keysOf cfgL).Nodup) :
    ∀ (n : Nat) (pending : List (String × Task))
      (resolved r : List (String × ResolvedTask)),
    pending.length ≤ n →
    (∀ kt ∈ pending, kt ∈ cfgL) →
    (keysOf pending ++ keysOf resolved).Nodup →
    Coherent cfgL resolved →
    resolveLoop pending resolved = .ok r →
    Coherent cfgL r ∧ (keysOf r).Perm (keysOf pending ++ keysOf resolved) := by
  intro n
  induction n with
  | zero =>
    intro pending resolved r hlen hsub hnd hco hok
    have hnil : pending = [] := List.length_eq_zero.mp (Nat.le_zero.mp hlen)
    subst hnil
    rw [resolveLoop] at hok
    have hemp : ([] : List (String × Task)).isEmpty = true := rfl
    rw [if_pos hemp] at hok
    cases hok
    exact ⟨hco, by simp [keysOf]⟩
  | succ n ih =>
    intro pending resolved r hlen hsub hnd hco hok
    rw [resolveLoop] at hok
    by_cases hemp : pending.isEmpty
    · rw [if_pos hemp] at hok
      have hnil : pending = [] := List.isEmpty_iff.mp hemp
      subst hnil
      cases hok
      exact ⟨hco, by simp [keysOf]⟩
    · rw [if_neg hemp] at hok
      by_cases hprog : (passTasks pending resolved).1.length = pending.length
      · rw [dif_pos hprog] at hok
        cases hok
      · rw [dif_neg hprog] at hok
        have hpt : passTasks pending resolved =
            pending.foldl passStep ([], resolved) := rfl
        obtain ⟨ha, hb, hc⟩ := foldl_passStep_ok cfgL hcnd pending ([], resolved)
          hsub (by simp) (by simpa using hnd) hco
        rw [← hpt] at ha hb hc
        have hc2 : (keysOf (passTasks pending resolved).1 ++
            keysOf (passTasks pending resolved).2).Perm
              (keysOf pending ++ keysOf resolved) := by
          refine hc.trans ?_
          simp [keysOf]
        have hnd2 : (keysOf (passTasks pending resolved).1 ++
            keysOf (passTasks pending resolved).2).Nodup :=
          hc2.symm.nodup hnd
        have hle := passTasks_fst_length_le pending resolved
        obtain ⟨h1, h2⟩ := ih (passTasks pending resolved).1
          (passTasks pending resolved).2 r (by omega) ha hnd2 hb hok
        exact ⟨h1, h2.trans hc2⟩

theorem tryFrom_ok_spec (c : Config) (hcnd : (keysOf c.tasks).Nodup)
    {w : Watch} {r : List (String × ResolvedTask)}
    (hok : tryFrom c = .ok (w, r)) :
    w = c.watch ∧ Coherent c.tasks r ∧ (keysOf r).Perm (keysOf c.tasks) := by
  cases hv : validateExtends c.tasks with
  | some e =>
    simp only [tryFrom, hv] at hok
    cases hok
  | none =>
    simp only [tryFrom, hv] at hok
    have hfilters : ((c.tasks.filter
        (fun kt => !extendsIsEmpty kt.2.extends_)) ++
        (c.tasks.filter (fun kt => extendsIsEmpty kt.2.extends_))).Perm
          c.tasks := by
      have h := List.filter_append_perm
        (fun kt : String × Task => !extendsIsEmpty kt.2.extends_) c.tasks
      simpa [Bool.not_not] using h
    have hkeysperm : (keysOf (c.tasks.filter
        (fun kt => !extendsIsEmpty kt.2.extends_)) ++
        keysOf ((c.tasks.filter
          (fun kt => extendsIsEmpty kt.2.extends_)).map
            (fun kt => (kt.1, taskIntoResolved kt.2)))).Perm
          (keysOf c.tasks) := by
      rw [keysOf_map_value, ← keysOf_append]
      exact hfilters.map Prod.fst
    have hnd0 : (keysOf (c.tasks.filter
        (fun kt => !extendsIsEmpty kt.2.extends_)) ++
        keysOf ((c.tasks.filter
          (fun kt => extendsIsEmpty kt.2.extends_)).map
            (fun kt => (kt.1, taskIntoResolved kt.2)))).Nodup :=
      hkeysperm.symm.nodup hcnd
    have hco0 : Coherent c.tasks ((c.tasks.filter
        (fun kt => extendsIsEmpty kt.2.extends_)).map
          (fun kt => (kt.1, taskIntoResolved kt.2))) :=
      coherent_seeds c.tasks hcnd _
        (fun kt hkt => ⟨(List.mem_filter.mp hkt).1, (List.mem_filter.mp hkt).2⟩)
    cases hl : resolveLoop
        (c.tasks.filter (fun kt => !extendsIsEmpty kt.2.extends_))
        ((c.tasks.filter (fun kt => extendsIsEmpty kt.2.extends_)).map
          (fun kt => (kt.1, taskIntoResolved kt.2))) with
    | error err =>
      rw [hl] at hok
      simp only [Except.map] at hok
      cases hok
    | ok r0 =>
      rw [hl] at hok
      simp only [Except.map] at hok
      have hw : w = c.watch ∧ r = r0 := by
        cases hok
        exact ⟨rfl, rfl⟩
      obtain ⟨h1, h2⟩ := resolveLoop_ok c.tasks hcnd
        (c.tasks.filter (fun kt => !extendsIsEmpty kt.2.extends_)).length
        _ _ r0 le_rfl
        (fun kt hkt => (List.mem_filter.mp hkt).1) hnd0 hco0 hl
      rw [hw.2]
      exact ⟨hw.1, h1, h2.trans hkeysperm⟩

theorem exists_alookup_of_mem_keys {α : Type} {m : List (String × α)}
    {k : String} (hnd : (keysOf m).Nodup) (h : k ∈ keysOf m) :
    ∃ v, alookup k m = some v := by
  rw [keysOf, List.mem_map] at h
  obtain ⟨kv, hkv, hfst⟩ := h
  refine ⟨kv.2, ?_⟩
  obtain ⟨a, b⟩ := kv
  cases hfst
  exact alookup_of_mem hnd hkv

/-- The concrete resolution of `pairConfig`, evaluated through the
pipeline: the seed `foo` first, then `bar` resolved in the first pass. -/
theorem tryFrom_pairConfig_eval :
    tryFrom pairConfig = .ok (defaultWatch,
      [("foo", { config := { defaultTaskConfig with name := some "Foo" }
               , shell := none
               , path := some { dirs := ["/bin"], apply := .before }
               , env := none }),
       ("bar", barRes)]) := by
  simp only [tryFrom, show validateExtends pairConfig.tasks = none by decide]
  rw [show (pairConfig.tasks.filter (fun kt => !extendsIsEmpty kt.2.extends_)) =
    [("bar", barTask)] by decide]
  rw [show ((pairConfig.tasks.filter (fun kt => extendsIsEmpty kt.2.extends_)).map
    (fun kt => (kt.1, taskIntoResolved kt.2))) =
    [("foo", { config := { defaultTaskConfig with name := some "Foo" }
             , shell := none
             , path := some { dirs := ["/bin"], apply := .before }
             , env := none })] by decide]
  rw [resolveLoop]
  rw [if_neg (by decide)]
  rw [dif_neg (by decide)]
  rw [show (passTasks [("bar", barTask)]
      [("foo", { config := { defaultTaskConfig with name := some "Foo" }
               , shell := none
               , path := some { dirs := ["/bin"], apply := .before }
               , env := none })]) =
    ([], [("foo", { config := { defaultTaskConfig with name := some "Foo" }
                  , shell := none
                  , path := some { dirs := ["/bin"], apply := .before }
                  , env := none }),
          ("bar", barRes)]) by decide]
  rw [resolveLoop]
  rfl

/-- The concrete resolution of `pairConfigRev`: the same document with the
tasks listed in the opposite order resolves to the same entries. -/
theorem tryFrom_pairConfigRev_eval :
    tryFrom pairConfigRev = .ok (defaultWatch,
      [("foo", { config := { defaultTaskConfig with name := some "Foo" }
               , shell := none
               , path := some { dirs := ["/bin"], apply := .before }
               , env := none }),
       ("bar", barRes)]) := by
  simp only [tryFrom, show validateExtends pairConfigRev.tasks = none by decide]
  rw [show (pairConfigRev.tasks.filter
      (fun kt => !extendsIsEmpty kt.2.extends_)) = [("bar", barTask)] by decide]
  rw [show ((pairConfigRev.tasks.filter
      (fun kt => extendsIsEmpty kt.2.extends_)).map
    (fun kt => (kt.1, taskIntoResolved kt.2))) =
    [("foo", { config := { defaultTaskConfig with name := some "Foo" }
             , shell := none
             , path := some { dirs := ["/bin"], apply := .before }
             , env := none })] by decide]
  rw [resolveLoop]
  rw [if_neg (by decide)]
  rw [dif_neg (by decide)]
  rw [show (passTasks [("bar", barTask)]
      [("foo", { config := { defaultTaskConfig with name := some "Foo" }
               , shell := none
               , path := some { dirs := ["/bin"], apply := .before }
               , env := none })]) =
    ([], [("foo", { config := { defaultTaskConfig with name := some "Foo" }
                  , shell := none
                  , path := some { dirs := ["/bin"], apply := .before }
                  , env := none }),
          ("bar", barRes)]) by decide]
  rw [resolveLoop]
  rfl

/-! ## C10: the resolved map's keys -/

/-- C10: on every successful resolution the resolved map holds exactly the
input task ids: its key list is a permutation of the input's key list
(hence the same membership), each id appears exactly once (the key list is
duplicate-free), and every input id looks up to a resolved task. -/
theorem resolved_keys_spec (c : Config) (hcnd : (keysOf c.tasks).Nodup)
    (w : Watch) (r : List (String × ResolvedTask))
    (hok : tryFrom c = .ok (w, r)) :
    (keysOf r).Perm (keysOf c.tasks)
  ∧ (keysOf r).Nodup
  ∧ (∀ id, id ∈ keysOf r ↔ id ∈ keysOf c.tasks)
  ∧ (∀ id ∈ keysOf c.tasks, ∃ rt, alookup id r = some rt) := by
  obtain ⟨_, _, hperm⟩ := tryFrom_ok_spec c hcnd hok
  have hnd : (keysOf r).Nodup := hperm.symm.nodup hcnd
  refine ⟨hperm, hnd, fun id => hperm.mem_iff, fun id hid => ?_⟩
  exact exists_alookup_of_mem_keys hnd (hperm.mem_iff.mpr hid)

/-- Witness for C10 at `pairConfig`: two input ids, two resolved entries,
same keys, each exactly once, and `bar` looks up successfully. -/
theorem resolved_keys_spec_witness :
    (keysOf [("foo", ResolvedTask.mk
        { defaultTaskConfig with name := some "Foo" } none
        (some { dirs := ["/bin"], apply := .before }) none),
      ("bar", barRes)]).Perm (keysOf pairConfig.tasks)
  ∧ (∃ rt, alookup "bar" [("foo", ResolvedTask.mk
        { defaultTaskConfig with name := some "Foo" } none
        (some { dirs := ["/bin"], apply := .before }) none),
      ("bar", barRes)] = some rt) :=
  ⟨(resolved_keys_spec pairConfig (by decide) defaultWatch _
      tryFrom_pairConfig_eval).1,
   (resolved_keys_spec pairConfig (by decide) defaultWatch _
      tryFrom_pairConfig_eval).2.2.2 "bar" (by decide)⟩

/-! ## C9: the base config is never inherited -/

theorem coherent_lookup {cfgL : List (String × Task)}
    {r0 : List (String × ResolvedTask)} (hco : Coherent cfgL r0) :
    ∀ {id : String} {rt : ResolvedTask}, alookup id r0 = some rt →
    ∃ t ps pre tail, r0 = pre ++ tail ∧ alookup id cfgL = some t ∧
      getParents t.extends_ pre = some ps ∧ rt = resolveTaskWith t ps := by
  induction hco with
  | nil =>
    intro id rt h
    simp [alookup] at h
  | @snoc r id0 t0 ps0 hr ht hps ih =>
    intro id rt h
    rw [alookup_append] at h
    cases hpre : alookup id r with
    | some v =>
      rw [hpre] at h
      obtain ⟨t, ps, pre, tail, he, h1, h2, h3⟩ := ih hpre
      refine ⟨t, ps, pre, tail ++ [(id0, resolveTaskWith t0 ps0)],
        by rw [he, List.append_assoc], h1, h2, ?_⟩
      cases h
      exact h3
    | none =>
      rw [hpre] at h
      rw [alookup] at h
      by_cases hid : id0 = id
      · rw [if_pos hid] at h
        cases h
        exact ⟨t0, ps0, r, [(id0, resolveTaskWith t0 ps0)], rfl,
          hid ▸ ht, hps, rfl⟩
      · rw [if_neg hid, alookup] at h
        cases h

/-- C9: resolution never alters a task's base config: every resolved
task's `config` — hence its name, cron, cmd, cmd_stop, stop_timeout,
on_start and enabled fields — equals the raw task's own `config`; only
the shell, path and env axes of a `ResolvedTask` are computed from
parents. -/
theorem base_config_frame (c : Config) (hcnd : (keysOf c.tasks).Nodup)
    (w : Watch) (r : List (String × ResolvedTask))
    (hok : tryFrom c = .ok (w, r)) (id : String) (rt : ResolvedTask)
    (hid : alookup id r = some rt) :
    ∃ t, alookup id c.tasks = some t ∧ rt.config = t.config ∧
      rt.config.name = t.config.name ∧ rt.config.cron = t.config.cron ∧
      rt.config.cmd = t.config.cmd ∧ rt.config.cmd_stop = t.config.cmd_stop ∧
      rt.config.stop_timeout = t.config.stop_timeout ∧
      rt.config.on_start = t.config.on_start ∧
      rt.config.enabled = t.config.enabled := by
  obtain ⟨_, hco, _⟩ := tryFrom_ok_spec c hcnd hok
  obtain ⟨t, ps, pre, tail, _, h1, _, h3⟩ := coherent_lookup hco hid
  have hcfg : rt.config = t.config := by
    rw [h3]
    rfl
  exact ⟨t, h1, hcfg, by rw [hcfg], by rw [hcfg], by rw [hcfg], by rw [hcfg],
    by rw [hcfg], by rw [hcfg], by rw [hcfg]⟩

/-- Witness for C9: in the resolved `pairConfig`, `bar` (resolved through
its parent `foo`) keeps its own base config untouched. -/
theorem base_config_frame_witness :
    ∃ t, alookup "bar" pairConfig.tasks = some t ∧
      barRes.config = t.config ∧
      barRes.config.name = t.config.name ∧
      barRes.config.cron = t.config.cron ∧
      barRes.config.cmd = t.config.cmd ∧
      barRes.config.cmd_stop = t.config.cmd_stop ∧
      barRes.config.stop_timeout = t.config.stop_timeout ∧
      barRes.config.on_start = t.config.on_start ∧
      barRes.config.enabled = t.config.enabled :=
  base_config_frame pairConfig (by decide) defaultWatch
    [("foo", ResolvedTask.mk { defaultTaskConfig with name := some "Foo" }
        none (some { dirs := ["/bin"], apply := .before }) none),
     ("bar", barRes)]
    tryFrom_pairConfig_eval "bar" barRes (by decide)

/-! ## C8: determinism and order-independence -/

theorem alookup_perm {α : Type} {m1 m2 : List (String × α)}
    (hperm : m1.Perm m2) (hnd : (keysOf m1).Nodup) (k : String) :
    alookup k m1 = alookup k m2 := by
  have hnd2 : (keysOf m2).Nodup := (hperm.map Prod.fst).nodup hnd
  cases h1 : alookup k m1 with
  | some v =>
    exact (alookup_of_mem hnd2 (hperm.mem_iff.mp (mem_of_alookup h1))).symm
  | none =>
    have h2 : k ∉ keysOf m2 := by
      intro hmem
      exact absurd ((hperm.map Prod.fst).mem_iff.mpr hmem)
        ((alookup_eq_none_iff k m1).mp h1)
    exact ((alookup_eq_none_iff k m2).mpr h2).symm

theorem mapM_agree {β : Type} {es : List String} {f g G : String → Option β}
    (hf : ∀ e p, f e = some p → G e = some p)
    (hg : ∀ e p, g e = some p → G e = some p) :
    ∀ {ps ps2 : List β}, es.mapM f = some ps → es.mapM g = some ps2 →
      ps = ps2 := by
  induction es with
  | nil =>
    intro ps ps2 h1 h2
    rw [show (List.mapM f [] : Option (List β)) = some [] from rfl] at h1
    rw [show (List.mapM g [] : Option (List β)) = some [] from rfl] at h2
    cases h1
    cases h2
    rfl
  | cons e rest ih =>
    intro ps ps2 h1 h2
    rw [optionMapM_cons] at h1 h2
    cases hfe : f e with
    | none =>
      rw [hfe] at h1
      cases h1
    | some p =>
      rw [hfe] at h1
      cases hge : g e with
      | none =>
        rw [hge] at h2
        cases h2
      | some p2 =>
        rw [hge] at h2
        cases hfr : rest.mapM f with
        | none =>
          rw [hfr] at h1
          cases h1
        | some pr =>
          rw [hfr] at h1
          cases hgr : rest.mapM g with
          | none =>
            rw [hgr] at h2
            cases h2
          | some pr2 =>
            rw [hgr] at h2
            cases h1
            cases h2
            have hp : p = p2 := by
              have e1 := hf e p hfe
              have e2 := hg e p2 hge
              rw [e1] at e2
              exact Option.some_inj.mp e2
            rw [hp, ih hfr hgr]

theorem coherent_agree {cfg1 cfg2 : List (String × Task)}
    (hL : ∀ k, alookup k cfg1 = alookup k cfg2)
    {r2 : List (String × ResolvedTask)}
    (h2 : Coherent cfg2 r2) (hnd2 : (keysOf r2).Nodup)
    (hdom : ∀ k, k ∈ keysOf cfg1 → k ∈ keysOf r2) :
    ∀ {r1 : List (String × ResolvedTask)}, Coherent cfg1 r1 →
    ∀ k v, alookup k r1 = some v → alookup k r2 = some v := by
  intro r1 h1
  induction h1 with
  | nil =>
    intro k v h
    simp [alookup] at h
  | @snoc r id0 t0 ps0 hr ht hps ih =>
    intro k v h
    rw [alookup_append] at h
    cases hpre : alookup k r with
    | some v0 =>
      rw [hpre] at h
      cases h
      exact ih k _ hpre
    | none =>
      rw [hpre] at h
      rw [alookup] at h
      by_cases hid : id0 = k
      · rw [if_pos hid] at h
        cases h
        subst hid
        have hk1 : id0 ∈ keysOf cfg1 := mem_keysOf_of_alookup ht
        obtain ⟨v2, hv2⟩ := exists_alookup_of_mem_keys hnd2 (hdom _ hk1)
        obtain ⟨t2, ps2, pre2, tail2, hsplit, ht2, hps2, hv2eq⟩ :=
          coherent_lookup h2 hv2
        have htt : t2 = t0 := by
          have hLk := hL id0
          rw [ht, ht2] at hLk
          exact (Option.some_inj.mp hLk).symm
        rw [htt] at hps2
        have hpp : ps0 = ps2 := by
          rw [getParents_eq] at hps hps2
          exact mapM_agree (G := fun s => alookup s r2)
            (fun e p hep => ih e p hep)
            (fun e p hep => by rw [hsplit]; exact alookup_prefix_some _ hep)
            hps hps2
        rw [htt, ← hpp] at hv2eq
        rw [hv2, hv2eq]
      · rw [if_neg hid, alookup] at h
        cases h

/-- C8: the pipeline is a pure function of the document — resolving the
same document twice is literal reflexivity in this embedding — and its
successful output is independent of the iteration order of the task map:
for documents whose task lists are permutations of each other (the same
map under key-order-independent equality) with equal watch settings, the
produced watch values coincide and the resolved maps agree on every key
lookup, even though the passes process tasks in different orders. -/
theorem resolution_deterministic (c1 c2 : Config)
    (hperm : c1.tasks.Perm c2.tasks) (hw : c1.watch = c2.watch)
    (hnd1 : (keysOf c1.tasks).Nodup)
    (w1 w2 : Watch) (r1 r2 : List (String × ResolvedTask))
    (hok1 : tryFrom c1 = .ok (w1, r1)) (hok2 : tryFrom c2 = .ok (w2, r2)) :
    w1 = w2 ∧ (∀ k, alookup k r1 = alookup k r2) := by
  have hkp : (keysOf c1.tasks).Perm (keysOf c2.tasks) := hperm.map Prod.fst
  have hnd2 : (keysOf c2.tasks).Nodup := hkp.nodup hnd1
  have hL : ∀ k, alookup k c1.tasks = alookup k c2.tasks :=
    alookup_perm hperm hnd1
  obtain ⟨hw1, hco1, hp1⟩ := tryFrom_ok_spec c1 hnd1 hok1
  obtain ⟨hw2, hco2, hp2⟩ := tryFrom_ok_spec c2 hnd2 hok2
  have hndr1 : (keysOf r1).Nodup := hp1.symm.nodup hnd1
  have hndr2 : (keysOf r2).Nodup := hp2.symm.nodup hnd2
  refine ⟨by rw [hw1, hw2, hw], fun k => ?_⟩
  have hdom12 : ∀ k, k ∈ keysOf c1.tasks → k ∈ keysOf r2 := fun k hk =>
    hp2.mem_iff.mpr (hkp.mem_iff.mp hk)
  have hdom21 : ∀ k, k ∈ keysOf c2.tasks → k ∈ keysOf r1 := fun k hk =>
    hp1.mem_iff.mpr (hkp.mem_iff.mpr hk)
  have h12 := coherent_agree hL hco2 hndr2 hdom12 hco1
  have h21 := coherent_agree (fun k => (hL k).symm) hco1 hndr1 hdom21 hco2
  cases hv : alookup k r1 with
  | some v => exact (h12 k v hv).symm
  | none =>
    cases hv2 : alookup k r2 with
    | none => rfl
    | some v2 =>
      rw [h21 k v2 hv2] at hv
      cases hv

/-- `seedsConfig` resolves in the seed pass alone, entries in list order. -/
theorem tryFrom_seedsConfig_eval :
    tryFrom seedsConfig = .ok (defaultWatch,
      [("a", taskIntoResolved emptyTask), ("b", taskIntoResolved fooTask)]) := by
  simp only [tryFrom, show validateExtends seedsConfig.tasks = none by decide]
  rw [show (seedsConfig.tasks.filter (fun kt => !extendsIsEmpty kt.2.extends_)) =
    ([] : List (String × Task)) by decide]
  rw [show ((seedsConfig.tasks.filter
      (fun kt => extendsIsEmpty kt.2.extends_)).map
    (fun kt => (kt.1, taskIntoResolved kt.2))) =
    [("a", taskIntoResolved emptyTask), ("b", taskIntoResolved fooTask)]
    by decide]
  rw [resolveLoop]
  rfl

/-- `seedsConfigRev` resolves to the same entries in the opposite order. -/
theorem tryFrom_seedsConfigRev_eval :
    tryFrom seedsConfigRev = .ok (defaultWatch,
      [("b", taskIntoResolved fooTask), ("a", taskIntoResolved emptyTask)]) := by
  simp only [tryFrom,
    show validateExtends seedsConfigRev.tasks = none by decide]
  rw [show (seedsConfigRev.tasks.filter
      (fun kt => !extendsIsEmpty kt.2.extends_)) =
    ([] : List (String × Task)) by decide]
  rw [show ((seedsConfigRev.tasks.filter
      (fun kt => extendsIsEmpty kt.2.extends_)).map
    (fun kt => (kt.1, taskIntoResolved kt.2))) =
    [("b", taskIntoResolved fooTask), ("a", taskIntoResolved emptyTask)]
    by decide]
  rw [resolveLoop]
  rfl

/-- Witness for C8: the same two-seed document listed in two different
orders produces resolved lists in different entry orders, the watch
values coincide, and the lookups of both task ids agree. -/
theorem resolution_deterministic_witness :
    defaultWatch = defaultWatch
  ∧ alookup "a" [("a", taskIntoResolved emptyTask),
      ("b", taskIntoResolved fooTask)] =
    alookup "a" [("b", taskIntoResolved fooTask),
      ("a", taskIntoResolved emptyTask)]
  ∧ alookup "b" [("a", taskIntoResolved emptyTask),
      ("b", taskIntoResolved fooTask)] =
    alookup "b" [("b", taskIntoResolved fooTask),
      ("a", taskIntoResolved emptyTask)] :=
  ⟨(resolution_deterministic seedsConfig seedsConfigRev (by decide) rfl
      (by decide) defaultWatch defaultWatch _ _
      tryFrom_seedsConfig_eval tryFrom_seedsConfigRev_eval).1,
   (resolution_deterministic seedsConfig seedsConfigRev (by decide) rfl
      (by decide) defaultWatch defaultWatch _ _
      tryFrom_seedsConfig_eval tryFrom_seedsConfigRev_eval).2 "a",
   (resolution_deterministic seedsConfig seedsConfigRev (by decide) rfl
      (by decide) defaultWatch defaultWatch _ _
      tryFrom_seedsConfig_eval tryFrom_seedsConfigRev_eval).2 "b"⟩

end Servum
